import Mathlib

/-!
Verification of the BFV homomorphic-encryption library (`bfv_scheme.py`,
`ciphertext.py`, `custom_fhe/polynomial.py`) against its natural-language
specification.

Modelling conventions.
* A polynomial of the ring `R_q` is a `List Int` of its coefficients
  (index `i` = coefficient of `X^i`), mirroring the numpy `int64` arrays of
  the source.
* numpy `int64` arithmetic wraps modulo `2^64` (two's complement); this is
  modelled by `i64`.  The moduli handled here satisfy `q < 2^63`, so the
  final `% q` of each source operation acts on in-range `int64` values.
* Python's `%` on integers and numpy's `%` with a positive modulus are the
  mathematical floor-mod, which for a positive modulus coincides with Lean's
  Euclidean `Int.emod`; Python's `//` on nonnegative operands is `Int.ediv`.
* `np.round` rounds half to even.  The source divides `int64` data as
  `float64`; this is modelled as exact rational division followed by
  round-half-to-even (exact for magnitudes below `2^53`; every concrete
  instance evaluated below stays in the exact range).
* The samplers (`random_ternary`, `random_uniform`, `sample_bounded`) are
  stateful CSPRNG consumers; their outputs are passed to the scheme
  operations as explicit arguments, constrained by the predicates
  `isTernary` / `isBounded` where a claim needs them.
* A Python method that can `raise` is modelled as returning
  `Except String _`; a method with no `raise` statement returns its value
  directly.  Key presence checks (`self.public_key is None`, …) are
  modelled by passing the key explicitly (`Option _` where the `None` path
  matters to a claim).
-/

namespace FHE

set_option maxRecDepth 8000

instance {ε α : Type} [DecidableEq ε] [DecidableEq α] : DecidableEq (Except ε α) := fun a b =>
  match a, b with
  | .error e, .error f =>
    match decEq e f with
    | isTrue h => isTrue (h ▸ rfl)
    | isFalse h => isFalse (fun hc => h (Except.error.inj hc))
  | .error _, .ok _ => isFalse (fun hc => Except.noConfusion hc)
  | .ok _, .error _ => isFalse (fun hc => Except.noConfusion hc)
  | .ok a, .ok b =>
    match decEq a b with
    | isTrue h => isTrue (h ▸ rfl)
    | isFalse h => isFalse (fun hc => h (Except.ok.inj hc))

/-- Two's-complement wrap of numpy `int64` arithmetic: the representative of
`x` modulo `2^64` lying in `[-2^63, 2^63)`. -/
def i64 (x : Int) : Int := (x + 2 ^ 63) % 2 ^ 64 - 2 ^ 63

/-- Round `num / den` (for `den > 0`) to the nearest integer, ties to even:
the behaviour of `np.round` on the exact quotient. -/
def roundHalfEven (num den : Int) : Int :=
  if 2 * (num % den) < den then num / den
  else if den < 2 * (num % den) then num / den + 1
  else if num / den % 2 = 0 then num / den else num / den + 1

/-- Coefficients drawn by `PolynomialRing.random_ternary` lie in `{-1,0,1}`. -/
def isTernary (p : List Int) : Prop := ∀ x ∈ p, x = -1 ∨ x = 0 ∨ x = 1

/-- Coefficients drawn by `DiscreteGaussian.sample_bounded(bound)` lie in
`[-bound, bound]`. -/
def isBounded (bound : Int) (p : List Int) : Prop :=
  ∀ x ∈ p, -bound ≤ x ∧ x ≤ bound

/-- All coefficients lie in the canonical range `[0, q)`. -/
def inRange (q : Int) (p : List Int) : Prop := ∀ x ∈ p, 0 ≤ x ∧ x < q

instance (p : List Int) : Decidable (isTernary p) :=
  inferInstanceAs (Decidable (∀ x ∈ p, x = -1 ∨ x = 0 ∨ x = 1))

instance (bound : Int) (p : List Int) : Decidable (isBounded bound p) :=
  inferInstanceAs (Decidable (∀ x ∈ p, -bound ≤ x ∧ x ≤ bound))

instance (q : Int) (p : List Int) : Decidable (inRange q p) :=
  inferInstanceAs (Decidable (∀ x ∈ p, 0 ≤ x ∧ x < q))

namespace PolynomialRing

/-- `PolynomialRing.add`: `(a + b) % q`, elementwise on `int64` arrays. -/
def add (q : Int) (a b : List Int) : List Int :=
  List.zipWith (fun x y => i64 (x + y) % q) a b

/-- `PolynomialRing.sub`: `(a - b) % q`. -/
def sub (q : Int) (a b : List Int) : List Int :=
  List.zipWith (fun x y => i64 (x - y) % q) a b

/-- `PolynomialRing.mul_scalar`: `(a * scalar) % q`. -/
def mul_scalar (q : Int) (a : List Int) (scalar : Int) : List Int :=
  a.map (fun x => i64 (x * scalar) % q)

/-- `PolynomialRing.neg`: `(-a) % q`. -/
def neg (q : Int) (a : List Int) : List Int :=
  a.map (fun x => i64 (-x) % q)

/-- One coefficient of `np.convolve(a, b)`: the `int64` sum of products
`a_i * b_(k-i)` (wrapping once is equivalent to wrapping every intermediate,
since reduction mod `2^64` is a ring homomorphism). -/
def convCoeff (a b : List Int) (k : Nat) : Int :=
  i64 (∑ i ∈ Finset.range (k + 1), a.getD i 0 * b.getD (k - i) 0)

/-- `PolynomialRing.mul`: full convolution in `int64`, negacyclic folding
`result[i-N] -= conv[i]`, then `% q`.  (`conv` has length `2N-1`; `getD`
returns `0` beyond it, matching the loop bound.) -/
def mul (q : Int) (N : Nat) (a b : List Int) : List Int :=
  (List.range N).map (fun j => i64 (convCoeff a b j - convCoeff a b (j + N)) % q)

/-- `PolynomialRing.mod_center`: subtract `q` from every coefficient
exceeding `q // 2`.  Note the modulus is the ring's own `q`. -/
def mod_center (q : Int) (a : List Int) : List Int :=
  a.map (fun x => if q / 2 < x then x - q else x)

end PolynomialRing

/-- Exact (unbounded-integer) convolution coefficient, for comparison with
the `int64` computation. -/
def convCoeffExact (a b : List Int) (k : Nat) : Int :=
  ∑ i ∈ Finset.range (k + 1), a.getD i 0 * b.getD (k - i) 0

/-- Modelled from the spec: the exact mathematical negacyclic product in
`Z_q[X]/(X^N + 1)` — full `2N-1` convolution over the integers, reduction
`X^(N+k) → -X^k`, every coefficient reduced to canonical `[0, q)`. -/
def negacyclicMul (q : Int) (N : Nat) (a b : List Int) : List Int :=
  (List.range N).map (fun j => (convCoeffExact a b j - convCoeffExact a b (j + N)) % q)

/-- Modelled from the spec: coefficientwise addition mod `q` over the exact
integers. -/
def addExact (q : Int) (a b : List Int) : List Int :=
  List.zipWith (fun x y => (x + y) % q) a b

/-- Modelled from the spec (§4.1): `center_mod(x)` returns `x` if `x ≤ q/2`
else `x - q`. -/
def center_mod (q x : Int) : Int := if 2 * x ≤ q then x else x - q

/-- Scheme parameters fixed by `BFVScheme.__init__`:
`q = 2^q_bits - 1` and `delta = q // t`. -/
structure Params where
  N : Nat
  t : Int
  q : Int
  delta : Int
deriving DecidableEq

/-- `BFVScheme.__init__(N, t, q_bits, sigma)` (sigma only parameterises the
samplers, whose outputs are explicit arguments here). -/
def mkParams (N : Nat) (t : Int) (q_bits : Nat) : Params :=
  { N := N, t := t, q := 2 ^ q_bits - 1, delta := (2 ^ q_bits - 1) / t }

/-- `Plaintext` of `ciphertext.py`: a coefficient array plus the scheme
parameters it was created with. -/
structure Plaintext where
  poly : List Int
  params : Params
deriving DecidableEq

/-- `Ciphertext` of `ciphertext.py`: a list of polynomial components plus
parameters. -/
structure Ciphertext where
  components : List (List Int)
  params : Params
deriving DecidableEq

/-- `Ciphertext.size`: the number of components. -/
def Ciphertext.size (ct : Ciphertext) : Nat := ct.components.length

/-- `Ciphertext.is_fresh`: `size == 2`. -/
def Ciphertext.is_fresh (ct : Ciphertext) : Bool := ct.size == 2

namespace BFVScheme

/-- `BFVScheme.key_generation`, as a function of the sampled values
`s = random_ternary()`, `a = random_uniform()`, `e = sample_bounded(6*int(sigma))`:
returns `(s, (b, a))` with `b = neg(a*s + e)`. -/
def key_generation (P : Params) (s a e : List Int) : List Int × (List Int × List Int) :=
  let a_s := PolynomialRing.mul P.q P.N a s
  let a_s_e := PolynomialRing.add P.q a_s e
  (s, (PolynomialRing.neg P.q a_s_e, a))

/-- `BFVScheme.encode` for a single integer value: `poly[0] = v % t`, the
other `N - 1` coefficients zero. -/
def encode (P : Params) (v : Int) : Plaintext :=
  ⟨v % P.t :: List.replicate (P.N - 1) 0, P⟩

/-- `BFVScheme.decode`: reduce mod `t`, then `poly_ring.mod_center` — which
centers over the ring modulus `q`, not over `t` — and return the first
`num_values` coefficients (the source returns the bare first entry when
`num_values == 1`). -/
def decode (P : Params) (pt : Plaintext) (num_values : Nat) : List Int :=
  (PolynomialRing.mod_center P.q (pt.poly.map (fun x => x % P.t))).take num_values

/-- `BFVScheme.encrypt`, as a function of the public key `(pk0, pk1)` and the
sampled `u = random_ternary()`, `e1, e2 = sample_bounded(…)`:
`c0 = pk0*u + e1 + delta*m`, `c1 = pk1*u + e2`.  (The `public_key is None`
check is modelled by the explicit `pk` argument.) -/
def encrypt (P : Params) (pk : List Int × List Int) (pt : Plaintext)
    (u e1 e2 : List Int) : Ciphertext :=
  let m := pt.poly
  let scaled_m := PolynomialRing.mul_scalar P.q m P.delta
  let pk0_u := PolynomialRing.mul P.q P.N pk.1 u
  let c0 := PolynomialRing.add P.q (PolynomialRing.add P.q pk0_u e1) scaled_m
  let pk1_u := PolynomialRing.mul P.q P.N pk.2 u
  let c1 := PolynomialRing.add P.q pk1_u e2
  ⟨[c0, c1], ⟨P.N, P.t, P.q, P.delta⟩⟩

/-- `BFVScheme.decrypt`, given the secret key polynomial `s`: size-2 input
yields `noisy_m = c0 + c1*s mod q` and then per coefficient
`round(noisy_m / delta) % t` (np.round, `.astype(np.int64)`); every other
size raises. -/
def decrypt (P : Params) (s : List Int) (ct : Ciphertext) : Except String Plaintext :=
  match ct.components with
  | [c0, c1] =>
    let c1_s := PolynomialRing.mul P.q P.N c1 s
    let noisy_m := PolynomialRing.add P.q c0 c1_s
    .ok ⟨noisy_m.map (fun x => i64 (roundHalfEven x P.delta) % P.t), ⟨P.N, P.t, P.q, P.delta⟩⟩
  | _ => .error "Can only decrypt size-2 ciphertexts. Use relinearization first."

/-- The component loop shared by `BFVScheme.add`: pointwise `poly_ring.add`,
the tail of the longer operand copied through. -/
def addComponents (q : Int) : List (List Int) → List (List Int) → List (List Int)
  | c :: cs, d :: ds => PolynomialRing.add q c d :: addComponents q cs ds
  | cs, [] => cs
  | [], ds => ds

/-- The component loop of `BFVScheme.sub`: pointwise `poly_ring.sub`, the
tail of `ct1` copied, the tail of `ct2` negated. -/
def subComponents (q : Int) : List (List Int) → List (List Int) → List (List Int)
  | c :: cs, d :: ds => PolynomialRing.sub q c d :: subComponents q cs ds
  | cs, [] => cs
  | [], ds => ds.map (PolynomialRing.neg q)

/-- `BFVScheme.add`: no parameter check of any kind; the result carries
`ct1.params`.  The source contains no `raise`. -/
def add (P : Params) (ct1 ct2 : Ciphertext) : Ciphertext :=
  ⟨addComponents P.q ct1.components ct2.components, ct1.params⟩

/-- `BFVScheme.sub`: no parameter check; result carries `ct1.params`. -/
def sub (P : Params) (ct1 ct2 : Ciphertext) : Ciphertext :=
  ⟨subComponents P.q ct1.components ct2.components, ct1.params⟩

/-- `BFVScheme.multiply`: requires both inputs fresh (size 2), computes the
tensor products in `R_q`, then rescales each component as
`np.round(d / t) % q`. -/
def multiply (P : Params) (ct1 ct2 : Ciphertext) : Except String Ciphertext :=
  if ct1.is_fresh && ct2.is_fresh then
    match ct1.components, ct2.components with
    | [c1_0, c1_1], [c2_0, c2_1] =>
      let d0 := PolynomialRing.mul P.q P.N c1_0 c2_0
      let d1 := PolynomialRing.add P.q (PolynomialRing.mul P.q P.N c1_0 c2_1)
        (PolynomialRing.mul P.q P.N c1_1 c2_0)
      let d2 := PolynomialRing.mul P.q P.N c1_1 c2_1
      let rescale := fun (d : List Int) => d.map (fun x => i64 (roundHalfEven x P.t) % P.q)
      .ok ⟨[rescale d0, rescale d1, rescale d2], ct1.params⟩
    | _, _ => .error "unreachable: fresh ciphertexts have two components"
  else .error "Can only multiply fresh ciphertexts (size 2)"

/-- `BFVScheme.relinearize`, given the single relin-key pair `(evk_b, evk_a)`
(`None` models `self.relin_key is None`): a missing key raises; any input
whose size is not 3 is returned unchanged; a size-3 input becomes
`(c0 + c2*evk_b, c1 + c2*evk_a)`. -/
def relinearize (P : Params) (rk : Option (List Int × List Int)) (ct : Ciphertext) :
    Except String Ciphertext :=
  match rk with
  | none => .error "Must generate relinearization key first"
  | some (evk_b, evk_a) =>
    match ct.components with
    | [c0, c1, c2] =>
      .ok ⟨[PolynomialRing.add P.q c0 (PolynomialRing.mul P.q P.N c2 evk_b),
            PolynomialRing.add P.q c1 (PolynomialRing.mul P.q P.N c2 evk_a)], ct.params⟩
    | _ => .ok ct

end BFVScheme

/-- Decryption as claim C2 words it: `v = c0 + c1·s mod q` (exact ring
arithmetic), then per coefficient `round(t · center_mod(v) / q) mod t`. -/
def claimDecrypt (P : Params) (s : List Int) (ct : Ciphertext) : Except String Plaintext :=
  match ct.components with
  | [c0, c1] =>
    let v := addExact P.q c0 (negacyclicMul P.q P.N c1 s)
    .ok ⟨v.map (fun x => roundHalfEven (P.t * center_mod P.q x) P.q % P.t),
         ⟨P.N, P.t, P.q, P.delta⟩⟩
  | _ => .error "unsupported size"

/-- Multiplication as claim C3 words it: the tensor components in `R_q`,
then the scale correction `eᵢ ← round(t · eᵢ / q) mod q` on each. -/
def claimMultiply (P : Params) (ct1 ct2 : Ciphertext) : Except String Ciphertext :=
  if ct1.is_fresh && ct2.is_fresh then
    match ct1.components, ct2.components with
    | [c1_0, c1_1], [c2_0, c2_1] =>
      let e0 := negacyclicMul P.q P.N c1_0 c2_0
      let e1 := addExact P.q (negacyclicMul P.q P.N c1_0 c2_1)
        (negacyclicMul P.q P.N c1_1 c2_0)
      let e2 := negacyclicMul P.q P.N c1_1 c2_1
      let rescale := fun (d : List Int) => d.map (fun x => roundHalfEven (P.t * x) P.q % P.q)
      .ok ⟨[rescale e0, rescale e1, rescale e2], ct1.params⟩
    | _, _ => .error "unreachable"
  else .error "Can only multiply fresh ciphertexts (size 2)"

/-- Decryption as claim C2 amends to: `v = c0 + c1·s mod q` (exact ring
arithmetic), then per coefficient `round(v / Δ) mod t` with `Δ = ⌊q/t⌋`,
rounding half to even, without any centering. -/
def deltaDecrypt (P : Params) (s : List Int) (ct : Ciphertext) : Except String Plaintext :=
  match ct.components with
  | [c0, c1] =>
    let v := addExact P.q c0 (negacyclicMul P.q P.N c1 s)
    .ok ⟨v.map (fun x => roundHalfEven x P.delta % P.t), ⟨P.N, P.t, P.q, P.delta⟩⟩
  | _ => .error "unsupported size"

/-- Multiplication as claim C3 amends to: the tensor components in `R_q`
(exact arithmetic), then `eᵢ ← round(eᵢ / t) mod q` on each, rounding half
to even. -/
def divTMultiply (P : Params) (ct1 ct2 : Ciphertext) : Except String Ciphertext :=
  if ct1.is_fresh && ct2.is_fresh then
    match ct1.components, ct2.components with
    | [c1_0, c1_1], [c2_0, c2_1] =>
      let e0 := negacyclicMul P.q P.N c1_0 c2_0
      let e1 := addExact P.q (negacyclicMul P.q P.N c1_0 c2_1)
        (negacyclicMul P.q P.N c1_1 c2_0)
      let e2 := negacyclicMul P.q P.N c1_1 c2_1
      let rescale := fun (d : List Int) => d.map (fun x => roundHalfEven x P.t % P.q)
      .ok ⟨[rescale e0, rescale e1, rescale e2], ct1.params⟩
    | _, _ => .error "unreachable"
  else .error "Can only multiply fresh ciphertexts (size 2)"

example : i64 (2 ^ 63) = -(2 ^ 63) := by decide
example : i64 (2 ^ 62) = 2 ^ 62 := by decide
example : roundHalfEven 11 7 = 2 := by decide
example : roundHalfEven (-8) 15 = -1 := by decide
example : roundHalfEven 5 2 = 2 := by decide
example : roundHalfEven 7 2 = 4 := by decide
example : roundHalfEven (-1) 2 = 0 := by decide
example : roundHalfEven (-3) 2 = -2 := by decide
example : PolynomialRing.mul 17 2 [3, 5] [2, 4] = [(6 - 20) % 17, 22 % 17] := by decide
example : negacyclicMul 17 2 [3, 5] [2, 4] = [(6 - 20) % 17, 22 % 17] := by decide

/-- Claim C1: the round trip `decode (decrypt (encrypt (encode v))) = v` for
`|v| < t/2` fails in the code for negative `v`, even with all samplers at
in-bounds outcomes and ample noise margin.  With `N = 2`, `t = 5`,
`q = 2^60 - 1` and every sampled polynomial zero (ternary `s`, `u`, uniform
`a`, Gaussian errors within `±6σ`), encrypting `v = -2` and decrypting is
exact, yet decoding returns `3 = t - 2` instead of `-2`: `decode` reduces
mod `t` but centers over `q` (a no-op), so negative values never come back. -/
theorem C1_roundtrip_fails_on_negative :
    isTernary [0, 0] ∧ isBounded 19 [0, 0] ∧
    BFVScheme.key_generation (mkParams 2 5 60) [0, 0] [0, 0] [0, 0] =
      ([0, 0], ([0, 0], [0, 0])) ∧
    (BFVScheme.decrypt (mkParams 2 5 60) [0, 0]
        (BFVScheme.encrypt (mkParams 2 5 60) ([0, 0], [0, 0])
          (BFVScheme.encode (mkParams 2 5 60) (-2)) [0, 0] [0, 0] [0, 0])).map
      (fun pt => BFVScheme.decode (mkParams 2 5 60) pt 1) = .ok [3] ∧
    ([3] : List Int) ≠ [-2] := by
  refine ⟨by decide, by decide, by decide, by decide, by decide⟩

/-- Claim C2: the code's `decrypt` disagrees with the claimed rounding
`w = round(t · center_mod(v) / q) mod t`.  With `N = 2`, `t = 2`,
`q = 2^4 - 1 = 15` (so `Δ = 7`), secret key `0` and ciphertext
`([11, 0], [0, 0])`, the code computes `round(11 / 7) mod 2 = 0` while the
claimed formula gives `round(2 · (-4) / 15) mod 2 = 1`. -/
theorem C2_counterexample :
    BFVScheme.decrypt (mkParams 2 2 4) [0, 0] ⟨[[11, 0], [0, 0]], mkParams 2 2 4⟩ =
      .ok ⟨[0, 0], mkParams 2 2 4⟩ ∧
    claimDecrypt (mkParams 2 2 4) [0, 0] ⟨[[11, 0], [0, 0]], mkParams 2 2 4⟩ =
      .ok ⟨[1, 0], mkParams 2 2 4⟩ ∧
    BFVScheme.decrypt (mkParams 2 2 4) [0, 0] ⟨[[11, 0], [0, 0]], mkParams 2 2 4⟩ ≠
      claimDecrypt (mkParams 2 2 4) [0, 0] ⟨[[11, 0], [0, 0]], mkParams 2 2 4⟩ := by
  refine ⟨by decide, by decide, by decide⟩

/-- Claim C3: the code's `multiply` rescales by `round(eᵢ / t) mod q`, not by
the claimed `round(t · eᵢ / q) mod q`.  With `N = 2`, `t = 3`, `q = 15` and
ciphertexts `([7, 0], [0, 0])` and `([1, 0], [0, 0])` the tensor component
`e₀ = 7`; the code yields `round(7 / 3) = 2` while the claimed correction
yields `round(3 · 7 / 15) = 1`. -/
theorem C3_counterexample :
    BFVScheme.multiply (mkParams 2 3 4)
        ⟨[[7, 0], [0, 0]], mkParams 2 3 4⟩ ⟨[[1, 0], [0, 0]], mkParams 2 3 4⟩ =
      .ok ⟨[[2, 0], [0, 0], [0, 0]], mkParams 2 3 4⟩ ∧
    claimMultiply (mkParams 2 3 4)
        ⟨[[7, 0], [0, 0]], mkParams 2 3 4⟩ ⟨[[1, 0], [0, 0]], mkParams 2 3 4⟩ =
      .ok ⟨[[1, 0], [0, 0], [0, 0]], mkParams 2 3 4⟩ ∧
    BFVScheme.multiply (mkParams 2 3 4)
        ⟨[[7, 0], [0, 0]], mkParams 2 3 4⟩ ⟨[[1, 0], [0, 0]], mkParams 2 3 4⟩ ≠
      claimMultiply (mkParams 2 3 4)
        ⟨[[7, 0], [0, 0]], mkParams 2 3 4⟩ ⟨[[1, 0], [0, 0]], mkParams 2 3 4⟩ := by
  refine ⟨by decide, by decide, by decide⟩

/-- Claim C4: `PolynomialRing.mul` is not exact for a ~60-bit modulus.  With
`q = 2^60 - 1` (the default `q_bits = 60`), `N = 2` and
`a = b = (2^60 - 2) + 0·X`, the exact negacyclic product has constant
coefficient `(q-1)² mod q = 1`, but the code's `np.convolve` on `int64`
wraps `(2^60 - 2)²` modulo `2^64` and delivers `0` — contradicting the
source's own comment "Use int64 to prevent overflow". -/
theorem C4_mul_overflows :
    PolynomialRing.mul (2 ^ 60 - 1) 2 [2 ^ 60 - 2, 0] [2 ^ 60 - 2, 0] = [0, 0] ∧
    negacyclicMul (2 ^ 60 - 1) 2 [2 ^ 60 - 2, 0] [2 ^ 60 - 2, 0] = [1, 0] ∧
    PolynomialRing.mul (2 ^ 60 - 1) 2 [2 ^ 60 - 2, 0] [2 ^ 60 - 2, 0] ≠
      negacyclicMul (2 ^ 60 - 1) 2 [2 ^ 60 - 2, 0] [2 ^ 60 - 2, 0] := by
  refine ⟨by decide, by decide, by decide⟩

/-- Claim C5: decrypting a size-3 ciphertext does not succeed — the code
raises instead of computing `c0 + c1·s + c2·s²`.  Concrete size-3 input. -/
theorem C5_counterexample :
    BFVScheme.decrypt (mkParams 2 3 4) [0, 0]
        ⟨[[1, 0], [2, 0], [3, 0]], mkParams 2 3 4⟩ =
      .error "Can only decrypt size-2 ciphertexts. Use relinearization first." := by
  decide

/-- Claim C6: a size-4 ciphertext is not rejected by `relinearize`; with a
relin key present it is returned unchanged. -/
theorem C6_counterexample :
    BFVScheme.relinearize (mkParams 2 3 4) (some ([1, 0], [2, 0]))
        ⟨[[1, 0], [2, 0], [3, 0], [4, 0]], mkParams 2 3 4⟩ =
      .ok ⟨[[1, 0], [2, 0], [3, 0], [4, 0]], mkParams 2 3 4⟩ := by
  decide

/-- Claim C7: `add` and `sub` never report a parameter mismatch.  Two
ciphertexts whose parameter sets differ (`t = 3` vs `t = 5`) are combined
componentwise and the result silently carries `ct1`'s parameters. -/
theorem C7_counterexample :
    (mkParams 2 3 4 : Params) ≠ mkParams 2 5 4 ∧
    BFVScheme.add (mkParams 2 3 4) ⟨[[1, 0], [2, 0]], mkParams 2 3 4⟩
        ⟨[[3, 0], [4, 0]], mkParams 2 5 4⟩ =
      ⟨[[4, 0], [6, 0]], mkParams 2 3 4⟩ ∧
    BFVScheme.sub (mkParams 2 3 4) ⟨[[1, 0], [2, 0]], mkParams 2 3 4⟩
        ⟨[[3, 0], [4, 0]], mkParams 2 5 4⟩ =
      ⟨[[13, 0], [13, 0]], mkParams 2 3 4⟩ := by
  refine ⟨by decide, by decide, by decide⟩

lemma i64_eq_self {x : Int} (h1 : -(2 ^ 63) ≤ x) (h2 : x < 2 ^ 63) : i64 x = x := by
  unfold i64
  rw [Int.emod_eq_of_lt (by linarith) (by norm_num; linarith)]
  ring

lemma abs_getD_le {A : Int} (hA : 0 ≤ A) :
    ∀ (a : List Int), (∀ x ∈ a, |x| ≤ A) → ∀ i : Nat, |a.getD i 0| ≤ A
  | [], _, i => by simpa using hA
  | x :: a, h, 0 => h x (List.mem_cons_self x a)
  | x :: a, h, i + 1 => by
    rw [List.getD_cons_succ]
    exact abs_getD_le hA a (fun y hy => h y (List.mem_cons_of_mem x hy)) i

lemma abs_convCoeffExact_le {a b : List Int} {A B : Int} (hA : 0 ≤ A) (hB : 0 ≤ B)
    (ha : ∀ x ∈ a, |x| ≤ A) (hb : ∀ x ∈ b, |x| ≤ B) (k : Nat) :
    |convCoeffExact a b k| ≤ ((k : Int) + 1) * (A * B) := by
  unfold convCoeffExact
  calc |∑ i ∈ Finset.range (k + 1), a.getD i 0 * b.getD (k - i) 0|
      ≤ ∑ i ∈ Finset.range (k + 1), |a.getD i 0 * b.getD (k - i) 0| :=
        Finset.abs_sum_le_sum_abs _ _
    _ ≤ ∑ _i ∈ Finset.range (k + 1), A * B := by
        refine Finset.sum_le_sum fun i _ => ?_
        rw [abs_mul]
        exact mul_le_mul (abs_getD_le hA a ha i) (abs_getD_le hB b hb (k - i))
          (abs_nonneg _) hA
    _ = ((k : Int) + 1) * (A * B) := by
        rw [Finset.sum_const, Finset.card_range, nsmul_eq_mul]
        push_cast
        ring

lemma convCoeff_eq_exact {a b : List Int} {A B : Int} (hA : 0 ≤ A) (hB : 0 ≤ B)
    (ha : ∀ x ∈ a, |x| ≤ A) (hb : ∀ x ∈ b, |x| ≤ B) (k : Nat)
    (hk : ((k : Int) + 1) * (A * B) < 2 ^ 63) :
    PolynomialRing.convCoeff a b k = convCoeffExact a b k := by
  have habs : |convCoeffExact a b k| < 2 ^ 63 :=
    lt_of_le_of_lt (abs_convCoeffExact_le hA hB ha hb k) hk
  rw [abs_lt] at habs
  exact i64_eq_self (le_of_lt habs.1) habs.2

/-- Under an overflow-margin hypothesis, the source's `int64` negacyclic
multiplication agrees with the exact mathematical product. -/
lemma mul_eq_negacyclicMul {a b : List Int} {A B : Int} (q : Int) (N : Nat)
    (hA : 0 ≤ A) (hB : 0 ≤ B) (ha : ∀ x ∈ a, |x| ≤ A) (hb : ∀ x ∈ b, |x| ≤ B)
    (hbig : 3 * (N : Int) * (A * B) < 2 ^ 63) :
    PolynomialRing.mul q N a b = negacyclicMul q N a b := by
  have hAB : (0 : Int) ≤ A * B := mul_nonneg hA hB
  have key : ∀ k : Nat, (k : Int) + 1 ≤ 3 * (N : Int) →
      ((k : Int) + 1) * (A * B) < 2 ^ 63 := fun k hk =>
    lt_of_le_of_lt (mul_le_mul_of_nonneg_right hk hAB) hbig
  unfold PolynomialRing.mul negacyclicMul
  apply List.map_congr_left
  intro j hj
  rw [List.mem_range] at hj
  have hk1 : ((j : Int) + 1) * (A * B) < 2 ^ 63 := key j (by omega)
  have hk2 : (((j + N : Nat) : Int) + 1) * (A * B) < 2 ^ 63 := key (j + N) (by omega)
  rw [convCoeff_eq_exact hA hB ha hb j hk1, convCoeff_eq_exact hA hB ha hb (j + N) hk2]
  have b1 := abs_convCoeffExact_le hA hB ha hb j
  have b2 := abs_convCoeffExact_le hA hB ha hb (j + N)
  have htri := abs_sub (convCoeffExact a b j) (convCoeffExact a b (j + N))
  have hsum : ((j : Int) + 1) * (A * B) + (((j + N : Nat) : Int) + 1) * (A * B) ≤
      3 * (N : Int) * (A * B) := by
    have hc : ((j : Int) + 1) + (((j + N : Nat) : Int) + 1) ≤ 3 * (N : Int) := by
      push_cast; omega
    calc ((j : Int) + 1) * (A * B) + (((j + N : Nat) : Int) + 1) * (A * B)
        = (((j : Int) + 1) + (((j + N : Nat) : Int) + 1)) * (A * B) := by ring
      _ ≤ 3 * (N : Int) * (A * B) := mul_le_mul_of_nonneg_right hc hAB
  have hd : |convCoeffExact a b j - convCoeffExact a b (j + N)| < 2 ^ 63 := by
    linarith
  rw [abs_lt] at hd
  rw [i64_eq_self (le_of_lt hd.1) hd.2]

lemma add_eq_addExact (q : Int) : ∀ a b : List Int,
    (∀ x ∈ a, |x| < 2 ^ 62) → (∀ x ∈ b, |x| < 2 ^ 62) →
    PolynomialRing.add q a b = addExact q a b
  | [], _, _, _ => rfl
  | _ :: _, [], _, _ => rfl
  | x :: a, y :: b, ha, hb => by
    have hx := ha x (List.mem_cons_self x a)
    have hy := hb y (List.mem_cons_self y b)
    rw [abs_lt] at hx hy
    have hi : i64 (x + y) = x + y :=
      i64_eq_self (by norm_num at hx hy ⊢; omega) (by norm_num at hx hy ⊢; omega)
    unfold PolynomialRing.add addExact
    rw [List.zipWith_cons_cons, List.zipWith_cons_cons, hi]
    exact congrArg _ (add_eq_addExact q a b
      (fun z hz => ha z (List.mem_cons_of_mem x hz))
      (fun z hz => hb z (List.mem_cons_of_mem y hz)))

lemma mem_zipWith_emod {q : Int} (hq : 0 < q) :
    ∀ (a b : List Int) (x : Int),
      x ∈ List.zipWith (fun u v => (u + v) % q) a b → 0 ≤ x ∧ x < q
  | u :: a, v :: b, x, hx => by
    rw [List.zipWith_cons_cons, List.mem_cons] at hx
    rcases hx with rfl | hx
    · exact ⟨Int.emod_nonneg _ (ne_of_gt hq), Int.emod_lt_of_pos _ hq⟩
    · exact mem_zipWith_emod hq a b x hx
  | [], _, x, hx => by simp at hx
  | _ :: _, [], x, hx => by simp at hx

lemma negacyclicMul_inRange {q : Int} (hq : 0 < q) (N : Nat) (a b : List Int) :
    inRange q (negacyclicMul q N a b) := by
  intro x hx
  unfold negacyclicMul at hx
  rw [List.mem_map] at hx
  obtain ⟨j, -, rfl⟩ := hx
  exact ⟨Int.emod_nonneg _ (ne_of_gt hq), Int.emod_lt_of_pos _ hq⟩

lemma roundHalfEven_nonneg {num den : Int} (hn : 0 ≤ num) (hd : 0 < den) :
    0 ≤ roundHalfEven num den := by
  have h := Int.ediv_nonneg hn (le_of_lt hd)
  unfold roundHalfEven
  split_ifs <;> linarith

lemma roundHalfEven_le {num den : Int} (hn : 0 ≤ num) :
    roundHalfEven num den ≤ num + 1 := by
  have h := Int.ediv_le_self den hn
  unfold roundHalfEven
  split_ifs <;> linarith

lemma addComponents_length (q : Int) : ∀ cs ds : List (List Int),
    (BFVScheme.addComponents q cs ds).length = max cs.length ds.length
  | c :: cs, d :: ds => by
    have ih := addComponents_length q cs ds
    simp only [BFVScheme.addComponents, List.length_cons, ih]
    omega
  | c :: cs, [] => by simp [BFVScheme.addComponents]
  | [], d :: ds => by simp [BFVScheme.addComponents]
  | [], [] => by simp [BFVScheme.addComponents]

lemma subComponents_length (q : Int) : ∀ cs ds : List (List Int),
    (BFVScheme.subComponents q cs ds).length = max cs.length ds.length
  | c :: cs, d :: ds => by
    have ih := subComponents_length q cs ds
    simp only [BFVScheme.subComponents, List.length_cons, ih]
    omega
  | c :: cs, [] => by simp [BFVScheme.subComponents]
  | [], d :: ds => by simp [BFVScheme.subComponents]
  | [], [] => by simp [BFVScheme.subComponents]

/-- Claim C5 (amended): `decrypt` supports only size-2 ciphertexts; every
input of any other size — size 3 included — is rejected with the error
telling the caller to relinearize first. -/
theorem C5_decrypt_rejects_non_size2 (P : Params) (s : List Int) (ct : Ciphertext)
    (h : ct.size ≠ 2) :
    BFVScheme.decrypt P s ct =
      .error "Can only decrypt size-2 ciphertexts. Use relinearization first." := by
  obtain ⟨comps, ps⟩ := ct
  rcases comps with _ | ⟨a, _ | ⟨b, _ | ⟨c, rest⟩⟩⟩
  · rfl
  · rfl
  · exact absurd rfl h
  · rfl

/-- Witness for C5: a concrete size-3 ciphertext is rejected. -/
theorem C5_witness :
    BFVScheme.decrypt (mkParams 2 3 4) [1, 0]
        ⟨[[4, 0], [5, 0], [6, 0]], mkParams 2 3 4⟩ =
      .error "Can only decrypt size-2 ciphertexts. Use relinearization first." :=
  C5_decrypt_rejects_non_size2 (mkParams 2 3 4) [1, 0]
    ⟨[[4, 0], [5, 0], [6, 0]], mkParams 2 3 4⟩ (by decide)

/-- Claim C6 (amended): given a relin key, `relinearize` returns every input
whose size is not 3 — size 2, but also size 4 and beyond — unchanged; no
size is rejected with an error (only a missing relin key is). -/
theorem C6_relinearize_passthrough (P : Params) (rk : List Int × List Int)
    (ct : Ciphertext) (h : ct.size ≠ 3) :
    BFVScheme.relinearize P (some rk) ct = .ok ct := by
  obtain ⟨evk_b, evk_a⟩ := rk
  obtain ⟨comps, ps⟩ := ct
  rcases comps with _ | ⟨a, _ | ⟨b, _ | ⟨c, _ | ⟨d, rest⟩⟩⟩⟩
  · rfl
  · rfl
  · rfl
  · exact absurd rfl h
  · rfl

/-- Witness for C6: a concrete size-2 ciphertext passes through unchanged. -/
theorem C6_witness :
    BFVScheme.relinearize (mkParams 2 3 4) (some ([1, 0], [2, 0]))
        ⟨[[5, 0], [6, 0]], mkParams 2 3 4⟩ =
      .ok ⟨[[5, 0], [6, 0]], mkParams 2 3 4⟩ :=
  C6_relinearize_passthrough (mkParams 2 3 4) ([1, 0], [2, 0])
    ⟨[[5, 0], [6, 0]], mkParams 2 3 4⟩ (by decide)

/-- Claim C7 (amended): `add` and `sub` perform no parameter-compatibility
check at all: for any two ciphertexts — whatever their parameter sets —
they return the componentwise result of size `max k₁ k₂`, silently carrying
`ct1`'s parameters. -/
theorem C7_no_param_check (P : Params) (ct1 ct2 : Ciphertext) :
    (BFVScheme.add P ct1 ct2).params = ct1.params ∧
    (BFVScheme.sub P ct1 ct2).params = ct1.params ∧
    (BFVScheme.add P ct1 ct2).size = max ct1.size ct2.size ∧
    (BFVScheme.sub P ct1 ct2).size = max ct1.size ct2.size := by
  refine ⟨rfl, rfl, ?_, ?_⟩
  · exact addComponents_length P.q ct1.components ct2.components
  · exact subComponents_length P.q ct1.components ct2.components

/-- Claim C8: the ciphertext-size state machine.  Multiplying two size-2
ciphertexts yields size 3; relinearizing a size-3 ciphertext (relin key
present) yields size 2; and `multiply` errors whenever either operand has
size 3, whatever the size of the other operand (`ct4` is arbitrary: in
particular both operands may be size 3). -/
theorem C8_size_state_machine (P : Params) (rk : List Int × List Int)
    (ct1 ct2 ct3 ct4 : Ciphertext) (h1 : ct1.size = 2) (h2 : ct2.size = 2)
    (h3 : ct3.size = 3) :
    (∃ ct', BFVScheme.multiply P ct1 ct2 = .ok ct' ∧ ct'.size = 3) ∧
    (∃ ct'', BFVScheme.relinearize P (some rk) ct3 = .ok ct'' ∧ ct''.size = 2) ∧
    BFVScheme.multiply P ct3 ct4 = .error "Can only multiply fresh ciphertexts (size 2)" ∧
    BFVScheme.multiply P ct4 ct3 = .error "Can only multiply fresh ciphertexts (size 2)" := by
  have hf3 : ct3.is_fresh = false := by
    simp [Ciphertext.is_fresh, h3]
  refine ⟨?_, ?_, ?_, ?_⟩
  · obtain ⟨a1, b1, hc1⟩ := List.length_eq_two.mp h1
    obtain ⟨a2, b2, hc2⟩ := List.length_eq_two.mp h2
    obtain ⟨comps1, ps1⟩ := ct1
    obtain ⟨comps2, ps2⟩ := ct2
    simp only [Ciphertext.size] at hc1 hc2
    subst hc1 hc2
    exact ⟨_, rfl, rfl⟩
  · obtain ⟨a3, b3, c3, hc3⟩ := List.length_eq_three.mp h3
    obtain ⟨comps3, ps3⟩ := ct3
    simp only [Ciphertext.size] at hc3
    subst hc3
    exact ⟨_, rfl, rfl⟩
  · simp [BFVScheme.multiply, hf3]
  · simp [BFVScheme.multiply, hf3]

/-- Witness for C8: concrete ciphertexts traverse the state machine as
proved; the error conjuncts pair the size-3 ciphertext with another size-3
ciphertext. -/
theorem C8_witness :
    (∃ ct', BFVScheme.multiply (mkParams 2 3 4)
        ⟨[[1, 0], [2, 0]], mkParams 2 3 4⟩ ⟨[[3, 0], [4, 0]], mkParams 2 3 4⟩ =
        .ok ct' ∧ ct'.size = 3) ∧
    (∃ ct'', BFVScheme.relinearize (mkParams 2 3 4) (some ([1, 0], [2, 0]))
        ⟨[[5, 0], [6, 0], [7, 0]], mkParams 2 3 4⟩ = .ok ct'' ∧ ct''.size = 2) ∧
    BFVScheme.multiply (mkParams 2 3 4) ⟨[[5, 0], [6, 0], [7, 0]], mkParams 2 3 4⟩
        ⟨[[8, 0], [9, 0], [1, 0]], mkParams 2 3 4⟩ =
      .error "Can only multiply fresh ciphertexts (size 2)" ∧
    BFVScheme.multiply (mkParams 2 3 4) ⟨[[8, 0], [9, 0], [1, 0]], mkParams 2 3 4⟩
        ⟨[[5, 0], [6, 0], [7, 0]], mkParams 2 3 4⟩ =
      .error "Can only multiply fresh ciphertexts (size 2)" :=
  C8_size_state_machine (mkParams 2 3 4) ([1, 0], [2, 0])
    ⟨[[1, 0], [2, 0]], mkParams 2 3 4⟩ ⟨[[3, 0], [4, 0]], mkParams 2 3 4⟩
    ⟨[[5, 0], [6, 0], [7, 0]], mkParams 2 3 4⟩
    ⟨[[8, 0], [9, 0], [1, 0]], mkParams 2 3 4⟩ (by decide) (by decide) (by decide)

/-- Claim C10: decrypting any size-2 ciphertext succeeds and yields a
plaintext of `N` coefficients all in the canonical range `[0, t)`: the final
`% t` never produces negative or `≥ t` values; centering to signed values
happens only in `decode`. -/
theorem C10_decrypt_range (P : Params) (s c0 c1 : List Int) (ps : Params)
    (ht : 0 < P.t) (hlen : c0.length = P.N) :
    ∃ pt, BFVScheme.decrypt P s ⟨[c0, c1], ps⟩ = .ok pt ∧
      pt.poly.length = P.N ∧ ∀ x ∈ pt.poly, 0 ≤ x ∧ x < P.t := by
  refine ⟨_, rfl, ?_, ?_⟩
  · simp [PolynomialRing.add, PolynomialRing.mul, hlen]
  · intro x hx
    rw [List.mem_map] at hx
    obtain ⟨y, -, rfl⟩ := hx
    exact ⟨Int.emod_nonneg _ (ne_of_gt ht), Int.emod_lt_of_pos _ ht⟩

/-- Witness for C10: a concrete size-2 decryption lands in `[0, t)`. -/
theorem C10_witness :
    ∃ pt, BFVScheme.decrypt (mkParams 2 3 4) [1, 0]
        ⟨[[4, 2], [3, 1]], mkParams 2 3 4⟩ = .ok pt ∧
      pt.poly.length = (mkParams 2 3 4).N ∧
      ∀ x ∈ pt.poly, 0 ≤ x ∧ x < (mkParams 2 3 4).t :=
  C10_decrypt_range (mkParams 2 3 4) [1, 0] [4, 2] [3, 1] (mkParams 2 3 4)
    (by decide) (by decide)

/-- Claim C2 (amended): for every size-2 ciphertext with coefficients in the
canonical range, given the ternary secret key and an overflow margin
`3·N·q < 2^63`, `decrypt` computes `v = c0 + c1·s mod q` (exact negacyclic
ring arithmetic) and then returns, per coefficient, `round(v / Δ) mod t`
with `Δ = ⌊q/t⌋`, rounding half to even and without any centering — the
`Δ`-divide variant, not the canonical `round(t·center_mod(v)/q) mod t`. -/
theorem C2_decrypt_delta_formula (P : Params) (s c0 c1 : List Int) (ps : Params)
    (hq : 0 < P.q) (hdelta : 0 < P.delta) (hN : 1 ≤ P.N)
    (hbig : 3 * (P.N : Int) * P.q < 2 ^ 63)
    (hs : isTernary s) (h0 : inRange P.q c0) (h1 : inRange P.q c1) :
    BFVScheme.decrypt P s ⟨[c0, c1], ps⟩ = deltaDecrypt P s ⟨[c0, c1], ps⟩ := by
  have hN' : (1 : Int) ≤ (P.N : Int) := by exact_mod_cast hN
  have hNq : P.q ≤ (P.N : Int) * P.q := by nlinarith
  have hpow : (2 : Int) ^ 63 = 9223372036854775808 := by norm_num
  have hpow62 : (2 : Int) ^ 62 = 4611686018427387904 := by norm_num
  have hq62 : P.q < 2 ^ 62 := by rw [hpow62]; rw [hpow] at hbig; linarith
  have hsb : ∀ x ∈ s, |x| ≤ (1 : Int) := by
    intro x hx
    rcases hs x hx with rfl | rfl | rfl <;> norm_num
  have hc1b : ∀ x ∈ c1, |x| ≤ P.q := by
    intro x hx
    have h := h1 x hx
    rw [abs_of_nonneg h.1]
    linarith [h.2]
  have hmul : PolynomialRing.mul P.q P.N c1 s = negacyclicMul P.q P.N c1 s :=
    mul_eq_negacyclicMul P.q P.N (le_of_lt hq) (by norm_num) hc1b hsb
      (by rw [mul_one]; exact hbig)
  have hmr := negacyclicMul_inRange hq P.N c1 s
  have h0b : ∀ x ∈ c0, |x| < 2 ^ 62 := by
    intro x hx
    have h := h0 x hx
    rw [abs_of_nonneg h.1]
    linarith [h.2]
  have hmb : ∀ x ∈ negacyclicMul P.q P.N c1 s, |x| < 2 ^ 62 := by
    intro x hx
    have h := hmr x hx
    rw [abs_of_nonneg h.1]
    linarith [h.2]
  have hadd : PolynomialRing.add P.q c0 (negacyclicMul P.q P.N c1 s) =
      addExact P.q c0 (negacyclicMul P.q P.N c1 s) :=
    add_eq_addExact P.q c0 _ h0b hmb
  have hmap : (addExact P.q c0 (negacyclicMul P.q P.N c1 s)).map
        (fun x => i64 (roundHalfEven x P.delta) % P.t) =
      (addExact P.q c0 (negacyclicMul P.q P.N c1 s)).map
        (fun x => roundHalfEven x P.delta % P.t) := by
    apply List.map_congr_left
    intro x hx
    have hxr := mem_zipWith_emod hq c0 (negacyclicMul P.q P.N c1 s) x hx
    have hrn := roundHalfEven_nonneg hxr.1 hdelta
    have hrl := @roundHalfEven_le x P.delta hxr.1
    rw [i64_eq_self (by rw [hpow]; linarith) (by rw [hpow]; rw [hpow62] at hq62; linarith [hxr.2])]
  show Except.ok (Plaintext.mk
      ((PolynomialRing.add P.q c0 (PolynomialRing.mul P.q P.N c1 s)).map
        (fun x => i64 (roundHalfEven x P.delta) % P.t)) ⟨P.N, P.t, P.q, P.delta⟩) =
    Except.ok (Plaintext.mk
      ((addExact P.q c0 (negacyclicMul P.q P.N c1 s)).map
        (fun x => roundHalfEven x P.delta % P.t)) ⟨P.N, P.t, P.q, P.delta⟩)
  rw [hmul, hadd, hmap]

/-- Witness for C2 (amended): a concrete in-range size-2 ciphertext where the
code's decryption equals the `Δ`-divide formula. -/
theorem C2_witness :
    BFVScheme.decrypt (mkParams 2 3 4) [1, 0] ⟨[[4, 2], [3, 1]], mkParams 2 3 4⟩ =
      deltaDecrypt (mkParams 2 3 4) [1, 0] ⟨[[4, 2], [3, 1]], mkParams 2 3 4⟩ :=
  C2_decrypt_delta_formula (mkParams 2 3 4) [1, 0] [4, 2] [3, 1] (mkParams 2 3 4)
    (by decide) (by decide) (by decide) (by decide) (by decide) (by decide) (by decide)

/-- Claim C3 (amended): for every pair of size-2 ciphertexts with
coefficients in the canonical range and an overflow margin
`3·N·q² < 2^63`, `multiply` computes the tensor components
`e₀ = c0·d0`, `e₁ = c0·d1 + c1·d0`, `e₂ = c1·d1` in `R_q` and applies to
each the correction `eᵢ ← round(eᵢ / t) mod q` (rounding half to even) —
dividing by `t`, not the claimed `round(t·eᵢ/q) mod q`. -/
theorem C3_multiply_div_t (P : Params) (c10 c11 c20 c21 : List Int) (ps1 ps2 : Params)
    (hq : 0 < P.q) (ht : 0 < P.t) (hN : 1 ≤ P.N)
    (hbig : 3 * (P.N : Int) * (P.q * P.q) < 2 ^ 63)
    (h10 : inRange P.q c10) (h11 : inRange P.q c11)
    (h20 : inRange P.q c20) (h21 : inRange P.q c21) :
    BFVScheme.multiply P ⟨[c10, c11], ps1⟩ ⟨[c20, c21], ps2⟩ =
      divTMultiply P ⟨[c10, c11], ps1⟩ ⟨[c20, c21], ps2⟩ := by
  have hN' : (1 : Int) ≤ (P.N : Int) := by exact_mod_cast hN
  have hq1 : (1 : Int) ≤ P.q := hq
  have hqq : P.q ≤ P.q * P.q := by nlinarith
  have hNqq : P.q * P.q ≤ (P.N : Int) * (P.q * P.q) := by nlinarith
  have hpow : (2 : Int) ^ 63 = 9223372036854775808 := by norm_num
  have hpow62 : (2 : Int) ^ 62 = 4611686018427387904 := by norm_num
  have hq62 : P.q < 2 ^ 62 := by rw [hpow62]; rw [hpow] at hbig; linarith
  have habs : ∀ (l : List Int), inRange P.q l → ∀ x ∈ l, |x| ≤ P.q := by
    intro l hl x hx
    have h := hl x hx
    rw [abs_of_nonneg h.1]
    linarith [h.2]
  have hmm : ∀ (u v : List Int), inRange P.q u → inRange P.q v →
      PolynomialRing.mul P.q P.N u v = negacyclicMul P.q P.N u v := by
    intro u v hu hv
    exact mul_eq_negacyclicMul P.q P.N (le_of_lt hq) (le_of_lt hq)
      (habs u hu) (habs v hv) hbig
  have habs62 : ∀ (l : List Int), inRange P.q l → ∀ x ∈ l, |x| < 2 ^ 62 := by
    intro l hl x hx
    have h := hl x hx
    rw [abs_of_nonneg h.1]
    linarith [h.2]
  have hadd : PolynomialRing.add P.q (negacyclicMul P.q P.N c10 c21)
        (negacyclicMul P.q P.N c11 c20) =
      addExact P.q (negacyclicMul P.q P.N c10 c21) (negacyclicMul P.q P.N c11 c20) :=
    add_eq_addExact P.q _ _
      (habs62 _ (negacyclicMul_inRange hq P.N c10 c21))
      (habs62 _ (negacyclicMul_inRange hq P.N c11 c20))
  have hrescale : ∀ (l : List Int), inRange P.q l →
      l.map (fun x => i64 (roundHalfEven x P.t) % P.q) =
        l.map (fun x => roundHalfEven x P.t % P.q) := by
    intro l hl
    apply List.map_congr_left
    intro x hx
    have h := hl x hx
    have hrn := roundHalfEven_nonneg h.1 ht
    have hrl := @roundHalfEven_le x P.t h.1
    rw [i64_eq_self (by rw [hpow]; linarith) (by rw [hpow]; rw [hpow62] at hq62; linarith [h.2])]
  have hd1range : inRange P.q (addExact P.q (negacyclicMul P.q P.N c10 c21)
      (negacyclicMul P.q P.N c11 c20)) := by
    intro x hx
    exact mem_zipWith_emod hq _ _ x hx
  show Except.ok (Ciphertext.mk
      [(PolynomialRing.mul P.q P.N c10 c20).map (fun x => i64 (roundHalfEven x P.t) % P.q),
       (PolynomialRing.add P.q (PolynomialRing.mul P.q P.N c10 c21)
         (PolynomialRing.mul P.q P.N c11 c20)).map
           (fun x => i64 (roundHalfEven x P.t) % P.q),
       (PolynomialRing.mul P.q P.N c11 c21).map (fun x => i64 (roundHalfEven x P.t) % P.q)]
      ps1) =
    Except.ok (Ciphertext.mk
      [(negacyclicMul P.q P.N c10 c20).map (fun x => roundHalfEven x P.t % P.q),
       (addExact P.q (negacyclicMul P.q P.N c10 c21) (negacyclicMul P.q P.N c11 c20)).map
         (fun x => roundHalfEven x P.t % P.q),
       (negacyclicMul P.q P.N c11 c21).map (fun x => roundHalfEven x P.t % P.q)]
      ps1)
  rw [hmm c10 c20 h10 h20, hmm c10 c21 h10 h21, hmm c11 c20 h11 h20, hmm c11 c21 h11 h21,
    hadd, hrescale _ (negacyclicMul_inRange hq P.N c10 c20),
    hrescale _ hd1range, hrescale _ (negacyclicMul_inRange hq P.N c11 c21)]

/-- Witness for C3 (amended): a concrete pair of in-range size-2 ciphertexts
where the code's multiplication equals the divide-by-`t` formula. -/
theorem C3_witness :
    BFVScheme.multiply (mkParams 2 3 4) ⟨[[4, 2], [3, 1]], mkParams 2 3 4⟩
        ⟨[[5, 0], [6, 1]], mkParams 2 3 4⟩ =
      divTMultiply (mkParams 2 3 4) ⟨[[4, 2], [3, 1]], mkParams 2 3 4⟩
        ⟨[[5, 0], [6, 1]], mkParams 2 3 4⟩ :=
  C3_multiply_div_t (mkParams 2 3 4) [4, 2] [3, 1] [5, 0] [6, 1]
    (mkParams 2 3 4) (mkParams 2 3 4) (by decide) (by decide) (by decide)
    (by decide) (by decide) (by decide) (by decide) (by decide)

/-- Claim C9: `decode` does not return signed centered representatives mod
`t`.  With `t = 65537`, `q = 2^60 - 1`, the plaintext coefficient
`65535 = t - 2` should decode to `-2` per the claim, but the code centers
over `q` (a no-op for values below `q/2`) and returns `65535`. -/
theorem C9_decode_not_centered :
    BFVScheme.decode (mkParams 2 65537 60) ⟨[65535, 0], mkParams 2 65537 60⟩ 1 =
      [65535] ∧
    center_mod (65537 : Int) 65535 = -2 ∧
    ([65535] : List Int) ≠ [-2] := by
  refine ⟨by decide, by decide, by decide⟩

end FHE
